import Mathlib

/-
  Verification development for the slang-playground VS Code extension
  language server (the worker in server/src/browserServerMain.ts, mirrored
  here from src/unnamed/part_001; an older revision of the same file appears
  in src/unnamed/part_002).

  JavaScript strings are modelled as lists of characters (`JSStr`), the
  Emscripten virtual filesystem as an association list of path/content pairs
  together with a set of created directories, and the foreign (WASM) calls
  of the handlers as oracle parameters.  Foreign calls that can throw are
  modelled with `Except Unit`; a handler that itself dies before producing
  its observable effect returns `none`.
-/

namespace SlangPlayground

/-- JavaScript strings, modelled as lists of characters. -/
abbrev JSStr := List Char

/-- JavaScript `text.split(sep)` for a one-character separator: yields the
(always nonempty) list of separator-free chunks between occurrences of
`sep`; `"".split(sep)` is `[""]`. -/
def splitOnChar (sep : Char) : JSStr → List JSStr
  | [] => [[]]
  | c :: rest =>
    match splitOnChar sep rest with
    | [] => [[]]
    | l :: ls => if c = sep then [] :: l :: ls else (c :: l) :: ls

/-- JavaScript `arr.join(sep)` for a one-character separator. -/
def joinChar (sep : Char) : List JSStr → JSStr
  | [] => []
  | [l] => l
  | l :: ls => l ++ sep :: joinChar sep ls

/-- The `middle[middle.length - 1] = middle[middle.length - 1] + suffix`
step of `applyIncrementalChange`: append `suf` to the last element. -/
def appendToLast (suf : JSStr) : List JSStr → List JSStr
  | [] => []
  | [x] => [x ++ suf]
  | x :: xs => x :: appendToLast suf xs

/-- The `middle` array built by `applyIncrementalChange`: `middle[0]` is
prefixed with `pre` and the last element suffixed with `suf`, under the
source's `if (middle.length > 0)` guard (the `[]` case). -/
def buildMiddle (pre suf : JSStr) : List JSStr → List JSStr
  | [] => []
  | x :: xs => appendToLast suf ((pre ++ x) :: xs)

/-- An LSP position (zero-based line/character). -/
structure Position where
  line : Nat
  character : Nat
  deriving DecidableEq

/-- An LSP range.  The source field `end` is a reserved word in Lean and is
named `endPos` here. -/
structure Range where
  start : Position
  endPos : Position
  deriving DecidableEq

/-- LSP `TextDocumentContentChangeEvent`: either a full-document replacement
(no range) or an incremental range edit.
`TextDocumentContentChangeEvent.isIncremental` distinguishes the two. -/
inductive TextDocumentContentChangeEvent where
  | full (text : JSStr)
  | incremental (range : Range) (text : JSStr)
  deriving DecidableEq

/-- The function `applyIncrementalChange(text, change)` from browserServerMain.ts
(src/unnamed/part_001 lines 93-124), one JS operation at a time:
`text.split('\n')` is `splitOnChar '\n'`; `lines.slice(0, startLine)` is
`List.take`; `lines.slice(endLine + 1)` is `List.drop`;
`lines[i] ?? ''` is `List.getD i []`; `substring(0, startChar)` /
`substring(endChar)` clamp like `List.take` / `List.drop`;
`(change.text || '')` equals `change.text` for strings (the falsy case is
`''` itself); `[...].join('\n')` is `joinChar '\n'`. -/
def applyIncrementalChange (text : JSStr) (change : TextDocumentContentChangeEvent) : JSStr :=
  match change with
  | .full t => t
  | .incremental range ctext =>
    let lines := splitOnChar '\n' text
    let startLine := range.start.line
    let startChar := range.start.character
    let endLine := range.endPos.line
    let endChar := range.endPos.character
    let before := lines.take startLine
    let after := lines.drop (endLine + 1)
    let startLineText := lines.getD startLine []
    let endLineText := lines.getD endLine []
    let pre := startLineText.take startChar
    let suf := endLineText.drop endChar
    let newLines := splitOnChar '\n' ctext
    let middle := buildMiddle pre suf newLines
    joinChar '\n' (before ++ middle ++ after)

/-- Follows the wording of spec §4.2 steps 2-4 (used to compare with the
code): keep the lines strictly before `range.start.line` and strictly after
`range.end.line`, rebuild the boundary as
`startLine[0:startChar] + newText + endLine[endChar:]` with the boundary
split on line breaks, and rejoin with line breaks. -/
def applyIncrementalChangeSpec (text : JSStr) (range : Range) (newText : JSStr) : JSStr :=
  let lines := splitOnChar '\n' text
  let prefixLines := lines.take range.start.line
  let suffixLines := lines.drop (range.endPos.line + 1)
  let startLineText := lines.getD range.start.line []
  let endLineText := lines.getD range.endPos.line []
  let boundary := startLineText.take range.start.character ++ newText
      ++ endLineText.drop range.endPos.character
  joinChar '\n' (prefixLines ++ splitOnChar '\n' boundary ++ suffixLines)

/-- The helper `removePrefix(data, prefix)` from browserServerMain.ts: strip the given
leading text if present, otherwise return the input unchanged. -/
def removePrefix (data : JSStr) (pre : JSStr) : JSStr :=
  if pre.isPrefixOf data then data.drop pre.length else data

/-- The decimal rendering of a natural number (JavaScript `String(i)`),
written with explicit fuel so that it is structural (the fuel `n + 1`
always suffices). -/
def natToDecimalAux : Nat → Nat → List Char
  | 0, _ => []
  | fuel + 1, n =>
    if n < 10 then [Nat.digitChar n]
    else natToDecimalAux fuel (n / 10) ++ [Nat.digitChar (n % 10)]

/-- JavaScript `String(i)` for a natural number `i`. -/
def natToDecimal (n : Nat) : List Char :=
  natToDecimalAux (n + 1) n

/-- The per-character `replaceAll(':', '%3A')` step of the workspace-root
normalization. -/
def replaceColon : JSStr → JSStr
  | [] => []
  | c :: rest =>
    if c = ':' then '%' :: '3' :: 'A' :: replaceColon rest
    else c :: replaceColon rest

/-- The normalization `workspaceUri.replaceAll('\\', '/').replaceAll(':', '%3A')` from
`getEmscriptenURI`. -/
def normalizeWorkspaceUri (s : JSStr) : JSStr :=
  replaceColon (s.map fun c => if c = '\\' then '/' else c)

/-- The server's `initializationOptions` as used by the URI translation:
`workspaceUris` is the array of workspace-folder filesystem paths sent by
the client (`vscode.workspace.workspaceFolders.map(folder => folder.uri.fsPath)`). -/
structure ServerInitializationOptions where
  workspaceUris : List JSStr
  deriving DecidableEq

/-- The function `getEmscriptenURI(uri)` from browserServerMain.ts (src/unnamed/part_001
lines 31-38).  The source loop is `for (const workspaceUri in
initializationOptions.workspaceUris)`: JavaScript `for...in` over an array
enumerates its index keys `"0", "1", ...` (not the stored root strings), so
the loop strips the normalized decimal index strings, one after the other
in index order. -/
def getEmscriptenURI (opts : ServerInitializationOptions) (uri : JSStr) : JSStr :=
  let u1 := removePrefix uri "vscode-test-web://".toList
  let u2 := removePrefix u1 "file:///".toList
  (List.range opts.workspaceUris.length).foldl
    (fun u i => removePrefix u (normalizeWorkspaceUri (natToDecimal i))) u2

/-- The function `getSlangdURI(uri)` from browserServerMain.ts. -/
def getSlangdURI (opts : ServerInitializationOptions) (uri : JSStr) : JSStr :=
  "file:///".toList ++ getEmscriptenURI opts uri

/-- The function `vscodeURIFromSlangdURI(uri)` from browserServerMain.ts. -/
def vscodeURIFromSlangdURI (uri : JSStr) : JSStr :=
  "vscode-test-web://".toList ++ removePrefix uri "file:///".toList

/-- The Emscripten virtual filesystem, modelled as the text contents stored
per path plus the set of directories created so far.  (`FS.writeFile`
stores the string it is given; `FS.readFile(path).toString()` is modelled
as recovering that stored text.) -/
structure EmscriptenFS where
  files : List (JSStr × JSStr)
  dirs : List JSStr
  deriving DecidableEq

/-- Replace the content stored for `p`, or add the entry if absent. -/
def setEntry : List (JSStr × JSStr) → JSStr → JSStr → List (JSStr × JSStr)
  | [], p, c => [(p, c)]
  | (q, d) :: rest, p, c =>
    if q = p then (p, c) :: rest else (q, d) :: setEntry rest p c

/-- The bridge call `slangWasmModule.FS.readFile`: `none` models the exception thrown when
no file exists at `path`. -/
def EmscriptenFS.readFile (fs : EmscriptenFS) (path : JSStr) : Option JSStr :=
  (fs.files.find? (fun e => e.1 = path)).map (fun e => e.2)

/-- The bridge call `slangWasmModule.FS.writeFile`: create-or-overwrite. -/
def EmscriptenFS.writeFile (fs : EmscriptenFS) (path content : JSStr) : EmscriptenFS :=
  { fs with files := setEntry fs.files path content }

/-- The computation `uri.split("/")` followed by `pop()` and `join("/")`: the directory part
of a path. -/
def dirOf (uri : JSStr) : JSStr :=
  joinChar '/' ((splitOnChar '/' uri).dropLast)

/-- The function `loadFileIntoEmscriptenFS(uri, content)` from src/unnamed/part_001
lines 79-91 (the current server): `FS.analyzePath(uri, false).parentExists`
is modelled as membership of the directory part in `dirs`,
`FS.createPath('/', dir, true, true)` as registering that directory, and
the unconditional `FS.writeFile(uri, content)` as create-or-overwrite. -/
def loadFileIntoEmscriptenFS (fs : EmscriptenFS) (uri content : JSStr) : EmscriptenFS :=
  let dir := dirOf uri
  let fs1 := if dir ∈ fs.dirs then fs else { fs with dirs := dir :: fs.dirs }
  fs1.writeFile uri content

/-- The earlier revision of `loadFileIntoEmscriptenFS` found in
src/unnamed/part_002 lines 76-92: `pathData.exists` is computed before the
directory is created, and when the file already exists the function logs
and returns without writing. -/
def loadFileIntoEmscriptenFS_v2 (fs : EmscriptenFS) (uri content : JSStr) : EmscriptenFS :=
  let dir := dirOf uri
  let fileExists := (fs.readFile uri).isSome
  let fs1 := if dir ∈ fs.dirs then fs else { fs with dirs := dir :: fs.dirs }
  if fileExists then fs1 else fs1.writeFile uri content

/-- The function `modifyEmscriptenFile(uri, changes)` from src/unnamed/part_001 lines
126-134: read the mirrored content, apply the changes in array order with
a `for...of` loop (a left fold), and write the result back in full.
`none` models the exception `FS.readFile` throws when the file is absent. -/
def modifyEmscriptenFile (fs : EmscriptenFS) (uri : JSStr)
    (changes : List TextDocumentContentChangeEvent) : Option EmscriptenFS :=
  match fs.readFile uri with
  | none => none
  | some content =>
      some (fs.writeFile uri (changes.foldl applyIncrementalChange content))

/-- The globals of the lazy module initialization: whether `slangd` has been
set (the body of the in-flight future finished), the shared in-flight
future `moduleReady` (identified by a promise id), the number of
`createModule()` instantiations started so far, and the next fresh promise
id. -/
structure SlangModuleState where
  slangdLoaded : Bool
  moduleReady : Option Nat
  instantiations : Nat
  nextPromiseId : Nat
  deriving DecidableEq

/-- Initial state of the worker process: nothing loaded. -/
def initialModuleState : SlangModuleState :=
  { slangdLoaded := false, moduleReady := none, instantiations := 0, nextPromiseId := 0 }

/-- The synchronous prologue of `ensureSlangModuleLoaded` (src/unnamed/part_001
lines 136-151).  On the single-threaded JS event loop this code (the
`slangd` check, the `moduleReady` check and the assignment of the async
IIFE's promise to `moduleReady`) runs atomically: the body's first `await`
comes after the assignment is visible to every other caller.  Returns the
updated globals and the value handed back to the caller (`none` for the
`if (slangd) return;` path, otherwise the shared promise). -/
def ensureSlangModuleLoaded (s : SlangModuleState) : SlangModuleState × Option Nat :=
  if s.slangdLoaded then (s, none)
  else
    match s.moduleReady with
    | some p => (s, some p)
    | none =>
        ({ slangdLoaded := s.slangdLoaded, moduleReady := some s.nextPromiseId,
           instantiations := s.instantiations + 1,
           nextPromiseId := s.nextPromiseId + 1 }, some s.nextPromiseId)

/-- Events of an execution interleaving: a caller entering
`ensureSlangModuleLoaded`, or the in-flight initialization body completing
(which sets `slangd`; it can only complete if it was started). -/
inductive ModuleEvent where
  | call
  | complete
  deriving DecidableEq

/-- One scheduler step; the second component accumulates the values returned
to the callers. -/
def moduleStep (st : SlangModuleState × List (Option Nat)) (e : ModuleEvent) :
    SlangModuleState × List (Option Nat) :=
  match e with
  | .call =>
      let r := ensureSlangModuleLoaded st.1
      (r.1, st.2 ++ [r.2])
  | .complete =>
      (if st.1.moduleReady.isSome then { st.1 with slangdLoaded := true } else st.1, st.2)

/-- Run an interleaving of callers and completions from process start. -/
def runModuleEvents (evs : List ModuleEvent) : SlangModuleState × List (Option Nat) :=
  evs.foldl moduleStep (initialModuleState, [])

/-- The fields of a successful compilation other than `code`
(`[compiledCode, layout, hashedStrings, reflection, threadGroupSizes]` on
the client side); the handler never touches them. -/
structure ShaderData where
  code : JSStr
  layout : JSStr
  hashedStrings : JSStr
  reflection : JSStr
  threadGroupSizes : JSStr
  deriving DecidableEq

/-- Type `MaybeShader`: a tagged success-or-failure compile result; failures are
returned as values, never thrown. -/
inductive MaybeShader where
  | success (result : ShaderData)
  | failure (message : JSStr)
  deriving DecidableEq

/-- Type `CompileRequest` from the shared playground interface. -/
structure CompileRequest where
  target : JSStr
  entrypoint : JSStr
  sourceCode : JSStr
  shaderPath : JSStr
  noWebGPU : Bool
  deriving DecidableEq

/-- The `connection.onRequest('slang/compile', ...)` handler from
src/unnamed/part_001 lines 377-401.  `compilerCompile` is the external
`compiler.compile(sourceCode, path, entrypoint, target, noWebGPU)` and
`spvDis` the external `spirvWasmModule.dis(...)` call (which reports
failure by returning the string `"Error"`); both live outside src/ and are
oracle parameters here. -/
def slangCompileHandler
    (compilerCompile : JSStr → JSStr → JSStr → JSStr → Bool → MaybeShader)
    (spvDis : JSStr → JSStr)
    (opts : ServerInitializationOptions)
    (params : CompileRequest) : MaybeShader :=
  let path := getEmscriptenURI opts params.shaderPath
  let compilation := compilerCompile params.sourceCode path params.entrypoint
      params.target params.noWebGPU
  match compilation with
  | .failure m => .failure m
  | .success shader =>
    if params.target = "SPIRV".toList then
      let disAsmCode := spvDis shader.code
      if disAsmCode = "Error".toList then
        .failure "Failed to get spirv string representation".toList
      else
        .success { shader with code := disAsmCode }
    else
      .success shader

/-- A diagnostic as handed back by the foreign `slangd.getDiagnostics`:
`message`, `severity` and `code` may be absent (the conversion loop guards
each with `?.`/`typeof` checks). -/
structure RawDiag where
  range : Range
  message : Option JSStr
  severity : Option Nat
  code : Option JSStr
  deriving DecidableEq

/-- An LSP diagnostic as published to the editor. -/
structure Diag where
  range : Range
  message : JSStr
  severity : Nat
  code : JSStr
  source : JSStr
  deriving DecidableEq

/-- The per-element conversion of the `for` loop in
`connection.onDidChangeTextDocument`: defaults are `''` for text fields and
`DiagnosticSeverity.Error` (numeric value 1) for the severity. -/
def convertDiagnostic (d : RawDiag) : Diag :=
  { range := d.range
    message := d.message.getD []
    severity := d.severity.getD 1
    code := d.code.getD []
    source := "slang".toList }

/-- One `connection.sendDiagnostics({ uri, diagnostics })` payload. -/
structure DiagnosticsPublish where
  uri : JSStr
  diagnostics : List Diag
  deriving DecidableEq

/-- The `connection.onDidChangeTextDocument` handler from
src/unnamed/part_001 lines 335-375, keeping the source's order:
`modifyEmscriptenFile` runs before the `try` block, so if the mirrored file
is absent its exception aborts the handler with no publish (`none`).
Inside the `try`: `didChangeResult` models the foreign
`TextEditList`/`didChangeTextDocument` calls (an exception lands in the
`catch`, which publishes `[]`); `getDiags` models
`slangd.getDiagnostics?.(wasmURI)` — `Except.error` an exception
(caught, `[]` published), `Except.ok none` an absent or malformed
(`!diagnostics || typeof ... !== 'function'`) result (`[]` published), and
`Except.ok (some ds)` a proper list whose `null` elements the loop skips.
Every publish is addressed to the original editor `uri`. -/
def handleDidChangeTextDocument
    (fs : EmscriptenFS) (opts : ServerInitializationOptions) (uri : JSStr)
    (changes : List TextDocumentContentChangeEvent)
    (didChangeResult : Except Unit Unit)
    (getDiags : Except Unit (Option (List (Option RawDiag)))) :
    Option (EmscriptenFS × DiagnosticsPublish) :=
  match modifyEmscriptenFile fs (getEmscriptenURI opts uri) changes with
  | none => none
  | some fs1 =>
    match didChangeResult with
    | .error _ => some (fs1, { uri := uri, diagnostics := [] })
    | .ok _ =>
      match getDiags with
      | .error _ => some (fs1, { uri := uri, diagnostics := [] })
      | .ok none => some (fs1, { uri := uri, diagnostics := [] })
      | .ok (some ds) =>
          some (fs1, { uri := uri,
                       diagnostics := ds.filterMap (fun d => d.map convertDiagnostic) })

/-- Invariant of the lazy-initialization state machine: the instantiation
count equals 1 exactly when the shared future exists, promise ids are
allocated in step with instantiations (so the only future ever created is
future 0), `slangd` can only be set once the future exists, and every
promise handed to a caller so far is future 0. -/
def ModuleInv (st : SlangModuleState × List (Option Nat)) : Prop :=
  st.1.instantiations = (if st.1.moduleReady.isSome then 1 else 0)
  ∧ st.1.nextPromiseId = st.1.instantiations
  ∧ (∀ p, st.1.moduleReady = some p → p = 0)
  ∧ (st.1.slangdLoaded = true → st.1.moduleReady.isSome = true)
  ∧ (∀ p, some p ∈ st.2 → p = 0)

/-! Basic facts about `splitOnChar`, `joinChar`, `appendToLast` and
`buildMiddle`. -/

theorem splitOnChar_ne_nil (sep : Char) (s : JSStr) : splitOnChar sep s ≠ [] := by
  cases s with
  | nil => simp [splitOnChar]
  | cons c rest =>
    cases h : splitOnChar sep rest with
    | nil => simp [splitOnChar, h]
    | cons l ls => by_cases hc : c = sep <;> simp [splitOnChar, h, hc]

theorem splitOnChar_head (sep : Char) (s : JSStr) :
    ∃ l ls, splitOnChar sep s = l :: ls := by
  cases h : splitOnChar sep s with
  | nil => exact absurd h (splitOnChar_ne_nil sep s)
  | cons l ls => exact ⟨l, ls, rfl⟩

theorem splitOnChar_cons (sep c : Char) (rest l : JSStr) (ls : List JSStr)
    (h : splitOnChar sep rest = l :: ls) :
    splitOnChar sep (c :: rest) = if c = sep then [] :: l :: ls else (c :: l) :: ls := by
  simp [splitOnChar, h]

theorem joinChar_cons_cons (sep : Char) (a b : JSStr) (t : List JSStr) :
    joinChar sep (a :: b :: t) = a ++ sep :: joinChar sep (b :: t) := rfl

theorem joinChar_splitOnChar (sep : Char) (s : JSStr) :
    joinChar sep (splitOnChar sep s) = s := by
  induction s with
  | nil => simp [splitOnChar, joinChar]
  | cons c rest ih =>
    obtain ⟨l, ls, h⟩ := splitOnChar_head sep rest
    rw [h] at ih
    rw [splitOnChar_cons sep c rest l ls h]
    by_cases hc : c = sep
    · rw [if_pos hc, joinChar_cons_cons, ih, hc]
      rfl
    · rw [if_neg hc]
      cases ls with
      | nil =>
        simp only [joinChar] at ih ⊢
        rw [ih]
      | cons y ys =>
        rw [joinChar_cons_cons] at ih
        rw [joinChar_cons_cons, List.cons_append, ih]

theorem sep_not_mem_of_mem_splitOnChar (sep : Char) (s l : JSStr)
    (hl : l ∈ splitOnChar sep s) : sep ∉ l := by
  induction s generalizing l with
  | nil =>
    simp only [splitOnChar, List.mem_singleton] at hl
    subst hl; simp
  | cons c rest ih =>
    obtain ⟨m, ms, h⟩ := splitOnChar_head sep rest
    rw [splitOnChar_cons sep c rest m ms h] at hl
    by_cases hc : c = sep
    · rw [if_pos hc] at hl
      rcases List.mem_cons.mp hl with h1 | h1
      · subst h1; simp
      · exact ih l (h ▸ h1)
    · rw [if_neg hc] at hl
      rcases List.mem_cons.mp hl with h1 | h1
      · subst h1
        intro hmem
        rcases List.mem_cons.mp hmem with h2 | h2
        · exact hc h2.symm
        · exact ih m (h ▸ List.mem_cons_self m ms) h2
      · exact ih l (h ▸ List.mem_cons_of_mem m h1)

theorem splitOnChar_of_not_mem (sep : Char) (s : JSStr) (h : sep ∉ s) :
    splitOnChar sep s = [s] := by
  induction s with
  | nil => rfl
  | cons c rest ih =>
    rw [List.mem_cons] at h
    push_neg at h
    obtain ⟨h1, h2⟩ := h
    rw [splitOnChar_cons sep c rest rest [] (ih h2), if_neg (fun e => h1 e.symm)]

theorem splitOnChar_append_left (sep : Char) (p t : JSStr) (hp : sep ∉ p)
    (l : JSStr) (ls : List JSStr) (h : splitOnChar sep t = l :: ls) :
    splitOnChar sep (p ++ t) = (p ++ l) :: ls := by
  induction p with
  | nil => simpa using h
  | cons c p' ih =>
    rw [List.mem_cons] at hp
    push_neg at hp
    obtain ⟨h1, h2⟩ := hp
    rw [List.cons_append, splitOnChar_cons sep c (p' ++ t) (p' ++ l) ls (ih h2),
      if_neg (fun e => h1 e.symm), List.cons_append]

theorem appendToLast_cons_cons (suf h : JSStr) (y : JSStr) (ys : List JSStr) :
    appendToLast suf (h :: y :: ys) = h :: appendToLast suf (y :: ys) := rfl

theorem splitOnChar_append_right (sep : Char) (t s : JSStr) (hs : sep ∉ s) :
    splitOnChar sep (t ++ s) = appendToLast s (splitOnChar sep t) := by
  induction t with
  | nil =>
    rw [List.nil_append, splitOnChar_of_not_mem sep s hs]
    simp [splitOnChar, appendToLast]
  | cons c t' ih =>
    obtain ⟨l, ls, h⟩ := splitOnChar_head sep t'
    rw [h] at ih
    obtain ⟨m, ms, hm⟩ := splitOnChar_head sep (t' ++ s)
    by_cases hc : c = sep
    · rw [List.cons_append, splitOnChar_cons sep c (t' ++ s) m ms hm, if_pos hc,
        splitOnChar_cons sep c t' l ls h, if_pos hc, appendToLast_cons_cons,
        ← hm, ih]
    · rw [List.cons_append, splitOnChar_cons sep c (t' ++ s) m ms hm, if_neg hc,
        splitOnChar_cons sep c t' l ls h, if_neg hc]
      cases ls with
      | nil =>
        have h2 : m :: ms = [l ++ s] := by
          rw [← hm, ih]; rfl
        cases h2
        simp [appendToLast]
      | cons y ys =>
        have h2 : m :: ms = l :: appendToLast s (y :: ys) := by
          rw [← hm, ih]; rfl
        cases h2
        rfl

theorem splitOnChar_wrap (sep : Char) (pre suf t : JSStr)
    (hp : sep ∉ pre) (hs : sep ∉ suf) :
    splitOnChar sep (pre ++ t ++ suf) = buildMiddle pre suf (splitOnChar sep t) := by
  obtain ⟨l, ls, h⟩ := splitOnChar_head sep t
  have hr : splitOnChar sep (t ++ suf) = appendToLast suf (l :: ls) := by
    rw [splitOnChar_append_right sep t suf hs, h]
  rw [List.append_assoc]
  cases ls with
  | nil =>
    have hr2 : splitOnChar sep (t ++ suf) = [l ++ suf] := by rw [hr]; rfl
    rw [splitOnChar_append_left sep pre (t ++ suf) hp (l ++ suf) [] hr2, h]
    simp [buildMiddle, appendToLast, List.append_assoc]
  | cons y ys =>
    have hr2 : splitOnChar sep (t ++ suf) = l :: appendToLast suf (y :: ys) := by
      rw [hr]; rfl
    rw [splitOnChar_append_left sep pre (t ++ suf) hp l (appendToLast suf (y :: ys)) hr2, h]
    rfl

theorem getD_mem_or_default (L : List JSStr) (i : Nat) :
    L.getD i [] ∈ L ∨ L.getD i [] = ([] : JSStr) := by
  induction L generalizing i with
  | nil => right; simp
  | cons x xs ih =>
    cases i with
    | zero => left; simp
    | succ n =>
      rcases ih n with h | h
      · left
        rw [List.getD_cons_succ]
        exact List.mem_cons_of_mem x h
      · right
        rw [List.getD_cons_succ]
        exact h

theorem sep_not_mem_getD (sep : Char) (s : JSStr) (i : Nat) :
    sep ∉ (splitOnChar sep s).getD i [] := by
  rcases getD_mem_or_default (splitOnChar sep s) i with h | h
  · exact sep_not_mem_of_mem_splitOnChar sep s _ h
  · rw [h]; simp

theorem appendToLast_nil (l : List JSStr) : appendToLast [] l = l := by
  induction l with
  | nil => rfl
  | cons x xs ih =>
    cases xs with
    | nil => simp [appendToLast]
    | cons y ys => rw [appendToLast_cons_cons, ih]

theorem buildMiddle_nil_nil (l : List JSStr) : buildMiddle [] [] l = l := by
  cases l with
  | nil => rfl
  | cons x xs => simp [buildMiddle, appendToLast_nil]

theorem joinChar_append (sep : Char) (a b : List JSStr) (ha : a ≠ []) (hb : b ≠ []) :
    joinChar sep (a ++ b) = joinChar sep a ++ sep :: joinChar sep b := by
  induction a with
  | nil => exact absurd rfl ha
  | cons x a' ih =>
    cases a' with
    | nil =>
      cases b with
      | nil => exact absurd rfl hb
      | cons y b' => rfl
    | cons z a'' =>
      have ih2 := ih (by simp)
      calc joinChar sep ((x :: z :: a'') ++ b)
          = x ++ sep :: joinChar sep (z :: (a'' ++ b)) := by
            rw [List.cons_append, List.cons_append, joinChar_cons_cons]
        _ = x ++ sep :: joinChar sep ((z :: a'') ++ b) := by rw [List.cons_append]
        _ = x ++ sep :: (joinChar sep (z :: a'') ++ sep :: joinChar sep b) := by rw [ih2]
        _ = (x ++ sep :: joinChar sep (z :: a'')) ++ sep :: joinChar sep b := by simp
        _ = joinChar sep (x :: z :: a'') ++ sep :: joinChar sep b := by
            rw [joinChar_cons_cons]

theorem joinChar_cons_append (sep : Char) (a h : JSStr) (t : List JSStr) :
    joinChar sep ((a ++ h) :: t) = a ++ joinChar sep (h :: t) := by
  cases t with
  | nil => rfl
  | cons y ys => rw [joinChar_cons_cons, joinChar_cons_cons, List.append_assoc]

/-! Claim C1. -/

/-- C1: for every text buffer and every incremental edit carrying a range,
`applyIncrementalChange` keeps all lines strictly before `range.start.line`
and strictly after `range.end.line` and rebuilds the boundary as
`startLine[0:startChar] + newText + endLine[endChar:]` with the new text
split on line breaks (the computation described word-for-word by
`applyIncrementalChangeSpec`); in particular the buffer `"abc\ndef"` with
the edit replacing (line 1, char 1)-(line 1, char 2) by `"X"` yields
exactly `"abc\ndXf"`. -/
theorem c1_applyIncrementalChange_matches_spec :
    (∀ (text : JSStr) (r : Range) (ntext : JSStr),
      applyIncrementalChange text (.incremental r ntext)
        = applyIncrementalChangeSpec text r ntext)
    ∧ applyIncrementalChange "abc\ndef".toList
        (.incremental ⟨⟨1, 1⟩, ⟨1, 2⟩⟩ "X".toList) = "abc\ndXf".toList := by
  constructor
  · intro text r ntext
    have hstart := sep_not_mem_getD '\n' text r.start.line
    have hend := sep_not_mem_getD '\n' text r.endPos.line
    have hp : '\n' ∉ ((splitOnChar '\n' text).getD r.start.line []).take r.start.character :=
      fun hm => hstart (List.take_subset _ _ hm)
    have hs : '\n' ∉ ((splitOnChar '\n' text).getD r.endPos.line []).drop r.endPos.character :=
      fun hm => hend (List.drop_subset _ _ hm)
    simp only [applyIncrementalChange, applyIncrementalChangeSpec]
    rw [splitOnChar_wrap '\n' _ _ ntext hp hs]
  · decide

/-! Claim C5. -/

/-- C5: `applyIncrementalChange` is a total function that clamps
out-of-range positions instead of failing.  When both range lines lie past
the last line of the buffer, the edit behaves as an append on a fresh line
(`text ++ "\n" ++ newText`); when the range lies on the single line of a
newline-free buffer with both characters past its length, the edit behaves
as a plain append (`text ++ newText`).  In both out-of-bounds situations a
string is returned (the embedding is a total Lean function; every indexing
step of the source — `lines[i] ?? ''`, `slice`, `substring` — is
non-throwing). -/
theorem c5_applyIncrementalChange_clamps :
    ∀ (text : JSStr) (r : Range) (ntext : JSStr),
      ((splitOnChar '\n' text).length ≤ r.start.line →
       (splitOnChar '\n' text).length ≤ r.endPos.line →
       applyIncrementalChange text (.incremental r ntext) = text ++ '\n' :: ntext)
      ∧ ('\n' ∉ text → r.start.line = 0 → r.endPos.line = 0 →
         text.length ≤ r.start.character → text.length ≤ r.endPos.character →
         applyIncrementalChange text (.incremental r ntext) = text ++ ntext) := by
  intro text r ntext
  constructor
  · intro h1 h2
    simp only [applyIncrementalChange]
    rw [List.take_of_length_le h1,
      List.drop_eq_nil_of_le (le_trans h2 (Nat.le_succ _)),
      List.getD_eq_default _ _ h1, List.getD_eq_default _ _ h2]
    rw [List.take_nil, List.drop_nil, buildMiddle_nil_nil, List.append_nil]
    rw [joinChar_append '\n' _ _ (splitOnChar_ne_nil _ _) (splitOnChar_ne_nil _ _),
      joinChar_splitOnChar, joinChar_splitOnChar]
  · intro hn h0s h0e hcs hce
    simp only [applyIncrementalChange]
    rw [h0s, h0e, splitOnChar_of_not_mem '\n' text hn]
    rw [List.take_zero, List.getD_cons_zero]
    rw [show List.drop (0 + 1) [text] = ([] : List JSStr) from rfl]
    rw [List.take_of_length_le hcs, List.drop_eq_nil_of_le hce]
    obtain ⟨h, t, hh⟩ := splitOnChar_head '\n' ntext
    rw [hh]
    rw [show buildMiddle text [] (h :: t) = (text ++ h) :: t from by
      simp [buildMiddle, appendToLast_nil]]
    rw [List.nil_append, List.append_nil, joinChar_cons_append, ← hh,
      joinChar_splitOnChar]

/-- Witness for C5 at concrete inputs: an edit whose lines lie past the end
of `"abc"` appends on a new line, and an edit on line 0 of `"abc"` with
characters past the end appends in place. -/
theorem c5_applyIncrementalChange_clamps_witness :
    applyIncrementalChange "abc".toList
        (.incremental ⟨⟨5, 0⟩, ⟨7, 2⟩⟩ "xy".toList)
      = "abc".toList ++ '\n' :: "xy".toList
    ∧ applyIncrementalChange "abc".toList
        (.incremental ⟨⟨0, 9⟩, ⟨0, 8⟩⟩ "Z".toList)
      = "abc".toList ++ "Z".toList :=
  ⟨(c5_applyIncrementalChange_clamps "abc".toList ⟨⟨5, 0⟩, ⟨7, 2⟩⟩ "xy".toList).1
      (by decide) (by decide),
   (c5_applyIncrementalChange_clamps "abc".toList ⟨⟨0, 9⟩, ⟨0, 8⟩⟩ "Z".toList).2
      (by decide) (by decide) (by decide) (by decide) (by decide)⟩

/-! Claim C2. -/

/-- C2: for every mirrored buffer and every batch of edits delivered in one
change notification, `modifyEmscriptenFile` rewrites the file with exactly
the left fold of single-edit application over the edits in array order (its
loop is that fold; nothing is reordered or coalesced); in particular a
two-edit batch `[A, B]` produces `apply(apply(text, A), B)`. -/
theorem c2_modifyEmscriptenFile_foldl
    (fs : EmscriptenFS) (uri content : JSStr)
    (changes : List TextDocumentContentChangeEvent)
    (A B : TextDocumentContentChangeEvent)
    (h : fs.readFile uri = some content) :
    modifyEmscriptenFile fs uri changes
      = some (fs.writeFile uri (changes.foldl applyIncrementalChange content))
    ∧ modifyEmscriptenFile fs uri [A, B]
      = some (fs.writeFile uri
          (applyIncrementalChange (applyIncrementalChange content A) B)) := by
  constructor
  · rw [modifyEmscriptenFile, h]
  · rw [modifyEmscriptenFile, h]
    rfl

/-- Witness for C2 at a concrete filesystem: the mirror of `"f.slang"`
holds `"ab\ncd"`, and a batch of one incremental edit followed by one
full-replacement edit folds left in order. -/
theorem c2_modifyEmscriptenFile_foldl_witness :
    modifyEmscriptenFile
        ⟨[("f.slang".toList, "ab\ncd".toList)], []⟩ "f.slang".toList
        [.incremental ⟨⟨0, 1⟩, ⟨0, 2⟩⟩ "X".toList, .full "done".toList]
      = some (EmscriptenFS.writeFile ⟨[("f.slang".toList, "ab\ncd".toList)], []⟩
          "f.slang".toList
          ([.incremental ⟨⟨0, 1⟩, ⟨0, 2⟩⟩ "X".toList,
            .full "done".toList].foldl applyIncrementalChange "ab\ncd".toList))
    ∧ modifyEmscriptenFile
        ⟨[("f.slang".toList, "ab\ncd".toList)], []⟩ "f.slang".toList
        [.incremental ⟨⟨0, 1⟩, ⟨0, 2⟩⟩ "X".toList, .full "done".toList]
      = some (EmscriptenFS.writeFile ⟨[("f.slang".toList, "ab\ncd".toList)], []⟩
          "f.slang".toList
          (applyIncrementalChange
            (applyIncrementalChange "ab\ncd".toList
              (.incremental ⟨⟨0, 1⟩, ⟨0, 2⟩⟩ "X".toList))
            (.full "done".toList))) :=
  c2_modifyEmscriptenFile_foldl
    ⟨[("f.slang".toList, "ab\ncd".toList)], []⟩ "f.slang".toList "ab\ncd".toList
    [.incremental ⟨⟨0, 1⟩, ⟨0, 2⟩⟩ "X".toList, .full "done".toList]
    (.incremental ⟨⟨0, 1⟩, ⟨0, 2⟩⟩ "X".toList) (.full "done".toList)
    (by decide)

/-! Claim C10. -/

theorem setEntry_find (l : List (JSStr × JSStr)) (p c : JSStr) :
    (setEntry l p c).find? (fun e => e.1 = p) = some (p, c) := by
  induction l with
  | nil => simp [setEntry, List.find?]
  | cons e rest ih =>
    by_cases hq : e.1 = p
    · obtain ⟨q, d⟩ := e
      simp only at hq
      simp [setEntry, hq, List.find?]
    · obtain ⟨q, d⟩ := e
      simp only at hq
      simp only [setEntry, if_neg hq]
      rw [List.find?_cons_of_neg _ (by simp [hq])]
      exact ih

theorem writeFile_readFile (fs : EmscriptenFS) (p c : JSStr) :
    (fs.writeFile p c).readFile p = some c := by
  simp [EmscriptenFS.writeFile, EmscriptenFS.readFile, setEntry_find]

/-- C10 (amended): in the current server (src/unnamed/part_001) the Bridge
write `loadFileIntoEmscriptenFS` creates the file if absent and overwrites
it if present, leaving the mirror holding exactly the given content, for
every starting filesystem. -/
theorem c10_loadFile_overwrites (fs : EmscriptenFS) (uri content : JSStr) :
    (loadFileIntoEmscriptenFS fs uri content).readFile uri = some content := by
  rw [loadFileIntoEmscriptenFS]
  by_cases hd : dirOf uri ∈ fs.dirs
  · rw [if_pos hd]
    exact writeFile_readFile fs uri content
  · rw [if_neg hd]
    exact writeFile_readFile _ uri content

/-- C10 counterexample: the `loadFileIntoEmscriptenFS` revision kept in
src/unnamed/part_002 returns early when a file already exists at the path,
silently keeping the old content — the claim's create-or-overwrite
behaviour fails there at this concrete input. -/
theorem c10_loadFile_v2_keeps_old_content :
    (loadFileIntoEmscriptenFS_v2
        ⟨[("dir/a.slang".toList, "old".toList)], ["dir".toList]⟩
        "dir/a.slang".toList "new".toList).readFile "dir/a.slang".toList
      = some "old".toList
    ∧ some "old".toList ≠ some "new".toList := by
  constructor
  · decide
  · decide

/-! Facts about the URI translation. -/

theorem digitChar_isDigit : ∀ m, m < 10 → (Nat.digitChar m).isDigit = true := by decide

theorem natToDecimalAux_head (fuel n : Nat) :
    ∃ c t, natToDecimalAux (fuel + 1) n = c :: t ∧ c.isDigit = true := by
  induction fuel generalizing n with
  | zero =>
    rw [natToDecimalAux]
    by_cases h : n < 10
    · rw [if_pos h]
      exact ⟨_, _, rfl, digitChar_isDigit n h⟩
    · rw [if_neg h]
      exact ⟨_, _, rfl, digitChar_isDigit (n % 10) (Nat.mod_lt n (by omega))⟩
  | succ fuel ih =>
    rw [natToDecimalAux]
    by_cases h : n < 10
    · rw [if_pos h]
      exact ⟨_, _, rfl, digitChar_isDigit n h⟩
    · rw [if_neg h]
      obtain ⟨c, t, hct, hd⟩ := ih (n / 10)
      rw [hct]
      exact ⟨c, t ++ [Nat.digitChar (n % 10)], rfl, hd⟩

theorem natToDecimal_head (n : Nat) :
    ∃ c t, natToDecimal n = c :: t ∧ c.isDigit = true :=
  natToDecimalAux_head n n

theorem replaceColon_cons_of_ne (c : Char) (rest : JSStr) (h : c ≠ ':') :
    replaceColon (c :: rest) = c :: replaceColon rest := by
  simp [replaceColon, h]

theorem normalizeWorkspaceUri_digit_head (c : Char) (t : JSStr) (hd : c.isDigit = true) :
    ∃ t', normalizeWorkspaceUri (c :: t) = c :: t' := by
  have h1 : c ≠ '\\' := by
    intro e; rw [e] at hd; exact absurd hd (by decide)
  have h2 : c ≠ ':' := by
    intro e; rw [e] at hd; exact absurd hd (by decide)
  simp only [normalizeWorkspaceUri, List.map_cons, if_neg h1]
  exact ⟨_, replaceColon_cons_of_ne c _ h2⟩

theorem isPrefixOf_ne_head (a b : Char) (p u : JSStr) (h : a ≠ b) :
    List.isPrefixOf (a :: p) (b :: u) = false := by
  simp [List.isPrefixOf, h]

theorem removePrefix_not_pre (p u : JSStr) (h : List.isPrefixOf p u = false) :
    removePrefix u p = u := by
  simp [removePrefix, h]

theorem removePrefix_append (p x : JSStr) : removePrefix (p ++ x) p = x := by
  have hp : List.isPrefixOf p (p ++ x) = true := by
    induction p with
    | nil => simp [List.isPrefixOf]
    | cons a p' ih => simp [List.isPrefixOf, ih]
  simp [removePrefix, hp, List.drop_left]

theorem stripIndices_id (n : Nat) (u' : JSStr) :
    (List.range n).foldl
      (fun u i => removePrefix u (normalizeWorkspaceUri (natToDecimal i))) ('v' :: u')
    = 'v' :: u' := by
  induction n with
  | zero => rfl
  | succ m ih =>
    rw [List.range_succ, List.foldl_append, ih]
    simp only [List.foldl_cons, List.foldl_nil]
    obtain ⟨c, t, hct, hd⟩ := natToDecimal_head m
    obtain ⟨t', ht'⟩ := normalizeWorkspaceUri_digit_head c t hd
    rw [hct, ht']
    apply removePrefix_not_pre
    apply isPrefixOf_ne_head
    intro e
    rw [e] at hd
    exact absurd hd (by decide)

/-! Claim C3. -/

/-- C3: for every editor URI under a known workspace root, the sandbox→editor
translation `vscodeURIFromSlangdURI` and the editor→sandbox translation
`getSlangdURI` compose as mutual inverses in the claim's sense:
`editorURI(sandboxURI(editorURI(u))) = editorURI(u)`, so every inbound
location of a result maps back to the same editor URI. -/
theorem c3_uri_roundtrip (opts : ServerInitializationOptions) (u rest root : JSStr)
    (h1 : u = "vscode-test-web://".toList ++ rest)
    (_h2 : root ∈ opts.workspaceUris)
    (_h3 : List.isPrefixOf (normalizeWorkspaceUri root) (getEmscriptenURI opts u) = true) :
    vscodeURIFromSlangdURI (getSlangdURI opts (vscodeURIFromSlangdURI u))
      = vscodeURIFromSlangdURI u := by
  subst h1
  have hv : "vscode-test-web://".toList = 'v' :: "scode-test-web://".toList := by decide
  have hf : "file:///".toList = 'f' :: "ile:///".toList := by decide
  have hne : List.isPrefixOf "file:///".toList ("vscode-test-web://".toList ++ rest) = false := by
    rw [hf, hv, List.cons_append]
    exact isPrefixOf_ne_head 'f' 'v' _ _ (by decide)
  have hg : vscodeURIFromSlangdURI ("vscode-test-web://".toList ++ rest)
      = "vscode-test-web://".toList ++ ("vscode-test-web://".toList ++ rest) := by
    rw [vscodeURIFromSlangdURI, removePrefix_not_pre _ _ hne]
  have hemU : getEmscriptenURI opts
      ("vscode-test-web://".toList ++ ("vscode-test-web://".toList ++ rest))
      = "vscode-test-web://".toList ++ rest := by
    simp only [getEmscriptenURI]
    rw [removePrefix_append, removePrefix_not_pre _ _ hne]
    conv_lhs => rw [hv, List.cons_append]
    rw [stripIndices_id, ← List.cons_append, ← hv]
  rw [hg, getSlangdURI, hemU, vscodeURIFromSlangdURI, removePrefix_append]

/-- Witness for C3: the editor URI `vscode-test-web:///ws/a.slang` under the
known workspace root `/ws` round-trips. -/
theorem c3_uri_roundtrip_witness :
    vscodeURIFromSlangdURI (getSlangdURI ⟨["/ws".toList]⟩
        (vscodeURIFromSlangdURI "vscode-test-web:///ws/a.slang".toList))
      = vscodeURIFromSlangdURI "vscode-test-web:///ws/a.slang".toList :=
  c3_uri_roundtrip ⟨["/ws".toList]⟩ "vscode-test-web:///ws/a.slang".toList
    "/ws/a.slang".toList "/ws".toList (by decide) (by decide) (by decide)

/-! Claim C4. -/

/-- C4 evaluated at the failing input: with the known workspace root `/ws`,
the URI `vscode-test-web:///ws/hello.slang` keeps its root — the
`for...in` loop of `getEmscriptenURI` enumerates the array's index keys
`"0", "1", ...` instead of the stored roots, so no workspace root is ever
stripped (first conjunct), while a URI whose path happens to begin with the
index string `"0"` loses that character instead (second conjunct). -/
theorem c4_for_in_bug_eval :
    getEmscriptenURI ⟨["/ws".toList]⟩ "vscode-test-web:///ws/hello.slang".toList
      = "/ws/hello.slang".toList
    ∧ getEmscriptenURI ⟨["/ws".toList]⟩ "vscode-test-web://0abc".toList
      = "abc".toList
    ∧ "/ws/hello.slang".toList ≠ "/hello.slang".toList :=
  ⟨by decide, by decide, by decide⟩

/-! Claim C6. -/

theorem moduleStep_inv (st : SlangModuleState × List (Option Nat)) (e : ModuleEvent)
    (h : ModuleInv st) : ModuleInv (moduleStep st e) := by
  obtain ⟨s, rs⟩ := st
  obtain ⟨h1, h2, h3, h4, h5⟩ := h
  cases e with
  | complete =>
    simp only [moduleStep]
    by_cases hm : s.moduleReady.isSome
    · rw [if_pos hm]
      exact ⟨h1, h2, h3, fun _ => hm, h5⟩
    · rw [if_neg hm]
      exact ⟨h1, h2, h3, h4, h5⟩
  | call =>
    by_cases hs : s.slangdLoaded
    · have hstep : moduleStep (s, rs) .call = (s, rs ++ [none]) := by
        simp [moduleStep, ensureSlangModuleLoaded, hs]
      rw [hstep]
      refine ⟨h1, h2, h3, h4, fun p hp => ?_⟩
      rcases List.mem_append.mp hp with hp | hp
      · exact h5 p hp
      · simp at hp
    · cases hm : s.moduleReady with
      | some q =>
        have hstep : moduleStep (s, rs) .call = (s, rs ++ [some q]) := by
          simp [moduleStep, ensureSlangModuleLoaded, hs, hm]
        rw [hstep]
        refine ⟨h1, h2, h3, h4, fun p hp => ?_⟩
        rcases List.mem_append.mp hp with hp | hp
        · exact h5 p hp
        · have hpq : p = q := by simpa using hp
          exact hpq ▸ h3 q hm
      | none =>
        have h1' : s.instantiations = 0 := by simpa [hm] using h1
        have h2' : s.nextPromiseId = 0 := h2.trans h1'
        have hstep : moduleStep (s, rs) .call =
            ({ slangdLoaded := s.slangdLoaded, moduleReady := some s.nextPromiseId,
               instantiations := s.instantiations + 1,
               nextPromiseId := s.nextPromiseId + 1 }, rs ++ [some s.nextPromiseId]) := by
          simp [moduleStep, ensureSlangModuleLoaded, hs, hm]
        rw [hstep]
        refine ⟨by simp [h1'], by simp [h1', h2'], ?_, fun _ => rfl, ?_⟩
        · intro p hp
          have hp2 : s.nextPromiseId = p := by simpa using hp
          rw [← hp2, h2']
        · intro p hp
          rcases List.mem_append.mp hp with hp | hp
          · exact h5 p hp
          · have hp2 : p = s.nextPromiseId := by simpa using hp
            rw [hp2, h2']

theorem moduleStep_isSome_mono (st : SlangModuleState × List (Option Nat)) (e : ModuleEvent)
    (h : st.1.moduleReady.isSome = true) :
    (moduleStep st e).1.moduleReady.isSome = true := by
  obtain ⟨s, rs⟩ := st
  cases e with
  | complete =>
    simp only [moduleStep]
    by_cases hm : s.moduleReady.isSome
    · rw [if_pos hm]
      simpa using h
    · rw [if_neg hm]
      exact h
  | call =>
    by_cases hs : s.slangdLoaded
    · simpa [moduleStep, ensureSlangModuleLoaded, hs] using h
    · cases hm : s.moduleReady with
      | some q => simp [moduleStep, ensureSlangModuleLoaded, hs, hm]
      | none => simp [moduleStep, ensureSlangModuleLoaded, hs, hm]

theorem moduleStep_call_isSome (st : SlangModuleState × List (Option Nat))
    (h : ModuleInv st) :
    (moduleStep st .call).1.moduleReady.isSome = true := by
  obtain ⟨s, rs⟩ := st
  obtain ⟨h1, h2, h3, h4, h5⟩ := h
  by_cases hs : s.slangdLoaded
  · have := h4 hs
    simpa [moduleStep, ensureSlangModuleLoaded, hs] using this
  · cases hm : s.moduleReady with
    | some q => simp [moduleStep, ensureSlangModuleLoaded, hs, hm]
    | none => simp [moduleStep, ensureSlangModuleLoaded, hs, hm]

theorem runModule_inv (evs : List ModuleEvent) (st : SlangModuleState × List (Option Nat))
    (h : ModuleInv st) :
    ModuleInv (evs.foldl moduleStep st)
    ∧ (st.1.moduleReady.isSome = true →
        (evs.foldl moduleStep st).1.moduleReady.isSome = true)
    ∧ (ModuleEvent.call ∈ evs →
        (evs.foldl moduleStep st).1.moduleReady.isSome = true) := by
  induction evs generalizing st with
  | nil =>
    exact ⟨h, fun h2 => h2, fun hmem => absurd hmem (List.not_mem_nil _)⟩
  | cons e evs' ih =>
    obtain ⟨i1, i2, i3⟩ := ih (moduleStep st e) (moduleStep_inv st e h)
    refine ⟨i1, ?_, ?_⟩
    · intro hm
      exact i2 (moduleStep_isSome_mono st e hm)
    · intro hmem
      rcases List.mem_cons.mp hmem with he | he
      · subst he
        exact i2 (moduleStep_call_isSome st h)
      · exact i3 he

/-- C6: in every interleaving of callers and completions of the lazy
initialization `ensureSlangModuleLoaded` — including two concurrent
first-time calls — at most one underlying module instantiation is started,
exactly one once any call has happened, and every future handed to a
caller is the single shared in-flight future (id 0). -/
theorem c6_at_most_once (evs : List ModuleEvent) :
    (runModuleEvents evs).1.instantiations ≤ 1
    ∧ (ModuleEvent.call ∈ evs → (runModuleEvents evs).1.instantiations = 1)
    ∧ (∀ p, some p ∈ (runModuleEvents evs).2 → p = 0) := by
  have hinit : ModuleInv (initialModuleState, []) := by
    refine ⟨rfl, rfl, ?_, ?_, ?_⟩ <;> simp [initialModuleState, ModuleInv]
  obtain ⟨inv, _, hcall⟩ := runModule_inv evs (initialModuleState, []) hinit
  obtain ⟨i1, i2, i3, i4, i5⟩ := inv
  simp only [runModuleEvents]
  refine ⟨?_, ?_, i5⟩
  · rw [i1]
    by_cases hm : ((evs.foldl moduleStep (initialModuleState, [])).1.moduleReady).isSome
    · rw [if_pos hm]
    · rw [if_neg hm]
      omega
  · intro hmem
    rw [i1, if_pos (hcall hmem)]

/-- Witness for C6: two concurrent first-time callers lead to exactly one
instantiation, and both callers receive the same shared future. -/
theorem c6_at_most_once_witness :
    (runModuleEvents [ModuleEvent.call, ModuleEvent.call]).1.instantiations = 1
    ∧ (runModuleEvents [ModuleEvent.call, ModuleEvent.call]).2 = [some 0, some 0] :=
  ⟨(c6_at_most_once [ModuleEvent.call, ModuleEvent.call]).2.1 (by decide), by decide⟩

/-! Claim C7. -/

/-- C7: for every compile request targeting SPIRV whose compile succeeds,
the handler makes the external disassembly call; when the disassembler
fails (returns `"Error"`) the handler returns the tagged failure with the
fixed message `Failed to get spirv string representation` and never a
partial success, and otherwise the disassembler's output replaces the code
field of the result (every other field untouched).  Failures are returned
as values of `MaybeShader`, never thrown. -/
theorem c7_spirv_disassembly
    (compilerCompile : JSStr → JSStr → JSStr → JSStr → Bool → MaybeShader)
    (spvDis : JSStr → JSStr) (opts : ServerInitializationOptions)
    (params : CompileRequest) (shader : ShaderData)
    (htarget : params.target = "SPIRV".toList)
    (hcompile : compilerCompile params.sourceCode
        (getEmscriptenURI opts params.shaderPath) params.entrypoint
        params.target params.noWebGPU = .success shader) :
    slangCompileHandler compilerCompile spvDis opts params =
      if spvDis shader.code = "Error".toList then
        .failure "Failed to get spirv string representation".toList
      else
        .success { shader with code := spvDis shader.code } := by
  simp only [slangCompileHandler]
  rw [hcompile, htarget]
  simp

/-- Witness for C7: a successful concrete compile whose disassembler
returns `"Error"` yields exactly the fixed tagged failure. -/
theorem c7_spirv_disassembly_witness :
    slangCompileHandler (fun _ _ _ _ _ => .success ⟨"RAW".toList, [], [], [], []⟩)
        (fun _ => "Error".toList) ⟨[]⟩ ⟨"SPIRV".toList, [], [], [], false⟩
      = .failure "Failed to get spirv string representation".toList := by
  rw [c7_spirv_disassembly (fun _ _ _ _ _ => .success ⟨"RAW".toList, [], [], [], []⟩)
    (fun _ => "Error".toList) ⟨[]⟩ ⟨"SPIRV".toList, [], [], [], false⟩
    ⟨"RAW".toList, [], [], [], []⟩ rfl rfl]
  decide

/-! Claim C8. -/

/-- C8 counterexample: a compile request with `noWebGPU = true` targeting
SPIRV still triggers the post-compile disassembly: the returned code field
is the disassembler's output `"DIS"`, not the compiler's raw `"RAW"` —
the handler consults only `params.target === "SPIRV"`, never `noWebGPU`,
so the claimed skip does not happen. -/
theorem c8_noWebGPU_does_not_skip :
    slangCompileHandler (fun _ _ _ _ _ => .success ⟨"RAW".toList, [], [], [], []⟩)
        (fun _ => "DIS".toList) ⟨[]⟩ ⟨"SPIRV".toList, [], [], [], true⟩
      = .success ⟨"DIS".toList, [], [], [], []⟩
    ∧ MaybeShader.success ⟨"DIS".toList, [], [], [], []⟩
        ≠ .success ⟨"RAW".toList, [], [], [], []⟩ :=
  ⟨by decide, by decide⟩

/-- C8 (amended): whether the post-compile disassembly happens depends only
on the request's target being SPIRV, not on `noWebGPU`: when the external
compiler treats both flag values alike the handler's result is independent
of the flag, and for every non-SPIRV target the compile result is returned
untouched (no disassembly); `noWebGPU` is merely forwarded to the external
`compiler.compile`. -/
theorem c8_target_decides_disassembly
    (compilerCompile : JSStr → JSStr → JSStr → JSStr → Bool → MaybeShader)
    (spvDis : JSStr → JSStr) (opts : ServerInitializationOptions)
    (params : CompileRequest)
    (hcc : ∀ s p e t, compilerCompile s p e t true = compilerCompile s p e t false) :
    slangCompileHandler compilerCompile spvDis opts { params with noWebGPU := true }
      = slangCompileHandler compilerCompile spvDis opts { params with noWebGPU := false }
    ∧ (params.target ≠ "SPIRV".toList →
        slangCompileHandler compilerCompile spvDis opts params
          = compilerCompile params.sourceCode (getEmscriptenURI opts params.shaderPath)
              params.entrypoint params.target params.noWebGPU) := by
  obtain ⟨tg, ep, sc, sp, ng⟩ := params
  constructor
  · simp only [slangCompileHandler]
    rw [hcc sc (getEmscriptenURI opts sp) ep tg]
  · intro ht
    simp only [slangCompileHandler]
    cases hcres : compilerCompile sc (getEmscriptenURI opts sp) ep tg ng with
    | failure m => rfl
    | success sh =>
      dsimp only
      rw [if_neg ht]

/-- Witness for C8 (amended) at concrete oracles: with a flag-insensitive
compiler and target WGSL, the handler ignores `noWebGPU` and passes the
compile result through untouched. -/
theorem c8_target_decides_disassembly_witness :
    slangCompileHandler (fun _ _ _ _ _ => .success ⟨"RAW2".toList, [], [], [], []⟩)
        (fun _ => "DIS2".toList) ⟨[]⟩
        { (⟨"WGSL".toList, [], [], [], false⟩ : CompileRequest) with noWebGPU := true }
      = slangCompileHandler (fun _ _ _ _ _ => .success ⟨"RAW2".toList, [], [], [], []⟩)
        (fun _ => "DIS2".toList) ⟨[]⟩
        { (⟨"WGSL".toList, [], [], [], false⟩ : CompileRequest) with noWebGPU := false }
    ∧ slangCompileHandler (fun _ _ _ _ _ => .success ⟨"RAW2".toList, [], [], [], []⟩)
        (fun _ => "DIS2".toList) ⟨[]⟩ ⟨"WGSL".toList, [], [], [], false⟩
      = MaybeShader.success ⟨"RAW2".toList, [], [], [], []⟩ :=
  ⟨(c8_target_decides_disassembly
      (fun _ _ _ _ _ => .success ⟨"RAW2".toList, [], [], [], []⟩)
      (fun _ => "DIS2".toList) ⟨[]⟩ ⟨"WGSL".toList, [], [], [], false⟩
      (fun _ _ _ _ => rfl)).1,
   (c8_target_decides_disassembly
      (fun _ _ _ _ _ => .success ⟨"RAW2".toList, [], [], [], []⟩)
      (fun _ => "DIS2".toList) ⟨[]⟩ ⟨"WGSL".toList, [], [], [], false⟩
      (fun _ _ _ _ => rfl)).2 (by decide)⟩

/-! Claim C9. -/

/-- C9 counterexample: a change notification for a document whose mirror is
absent from the sandbox filesystem produces no diagnostics publish at all —
`modifyEmscriptenFile` (and its `FS.readFile`) runs before the `try` block,
so its exception aborts the handler before any `sendDiagnostics`,
contradicting the claim that a publish is always sent. -/
theorem c9_publish_skipped_without_mirror :
    handleDidChangeTextDocument ⟨[], []⟩ ⟨[]⟩ "vscode-test-web://a.slang".toList []
      (Except.ok ()) (Except.ok none) = none := by
  decide

/-- C9 (amended): for every change notification whose document is mirrored
in the sandbox filesystem (the case guaranteed by a preceding open), a
diagnostics publish addressed to the original editor URI is always sent;
on any adapter failure while obtaining the diagnostics — the foreign call
throwing, or the diagnostics object being absent or malformed — the
published list is the empty list, never an omitted publish, and on success
it is the converted diagnostics list. -/
theorem c9_publish_with_mirror
    (fs : EmscriptenFS) (opts : ServerInitializationOptions) (uri : JSStr)
    (changes : List TextDocumentContentChangeEvent)
    (dc : Except Unit Unit) (gd : Except Unit (Option (List (Option RawDiag))))
    (content : JSStr)
    (h : fs.readFile (getEmscriptenURI opts uri) = some content) :
    ∃ fs1 pub, handleDidChangeTextDocument fs opts uri changes dc gd = some (fs1, pub)
      ∧ pub.uri = uri
      ∧ (dc = .error () → pub.diagnostics = [])
      ∧ (gd = .error () → pub.diagnostics = [])
      ∧ (gd = .ok none → pub.diagnostics = [])
      ∧ (∀ ds, dc = .ok () → gd = .ok (some ds) →
          pub.diagnostics = ds.filterMap (fun d => d.map convertDiagnostic)) := by
  have hm : modifyEmscriptenFile fs (getEmscriptenURI opts uri) changes
      = some (fs.writeFile (getEmscriptenURI opts uri)
          (changes.foldl applyIncrementalChange content)) := by
    rw [modifyEmscriptenFile, h]
  cases dc with
  | error u =>
    cases u
    exact ⟨fs.writeFile (getEmscriptenURI opts uri)
        (changes.foldl applyIncrementalChange content), ⟨uri, []⟩,
      by simp only [handleDidChangeTextDocument, hm], rfl,
      fun _ => rfl, fun _ => rfl, fun _ => rfl,
      fun ds hdc _ => by simp at hdc⟩
  | ok u =>
    cases u
    cases gd with
    | error v =>
      cases v
      exact ⟨fs.writeFile (getEmscriptenURI opts uri)
          (changes.foldl applyIncrementalChange content), ⟨uri, []⟩,
        by simp only [handleDidChangeTextDocument, hm], rfl,
        fun hdc => by simp at hdc, fun _ => rfl, fun hgd => by simp at hgd,
        fun ds _ hgd => by simp at hgd⟩
    | ok o =>
      cases o with
      | none =>
        exact ⟨fs.writeFile (getEmscriptenURI opts uri)
            (changes.foldl applyIncrementalChange content), ⟨uri, []⟩,
          by simp only [handleDidChangeTextDocument, hm], rfl,
          fun hdc => by simp at hdc, fun hgd => by simp at hgd, fun _ => rfl,
          fun ds _ hgd => by simp at hgd⟩
      | some ds0 =>
        refine ⟨fs.writeFile (getEmscriptenURI opts uri)
            (changes.foldl applyIncrementalChange content),
          ⟨uri, ds0.filterMap (fun d => d.map convertDiagnostic)⟩,
          by simp only [handleDidChangeTextDocument, hm], rfl,
          fun hdc => by simp at hdc, fun hgd => by simp at hgd,
          fun hgd => by simp at hgd, fun ds _ hgd => ?_⟩
        have hds : ds0 = ds := by simpa using hgd
        rw [hds]

/-- Witness for C9 (amended): with the mirror of `a.slang` present and the
foreign diagnostics object absent, a publish to the original editor URI is
sent carrying the empty list. -/
theorem c9_publish_with_mirror_witness :
    ∃ fs1 pub,
      handleDidChangeTextDocument ⟨[("a.slang".toList, "x".toList)], []⟩ ⟨[]⟩
          "vscode-test-web://a.slang".toList [] (Except.ok ()) (Except.ok none)
        = some (fs1, pub)
      ∧ pub.uri = "vscode-test-web://a.slang".toList
      ∧ pub.diagnostics = [] := by
  obtain ⟨fs1, pub, h1, h2, _, _, h5, _⟩ :=
    c9_publish_with_mirror ⟨[("a.slang".toList, "x".toList)], []⟩ ⟨[]⟩
      "vscode-test-web://a.slang".toList [] (Except.ok ()) (Except.ok none)
      "x".toList (by decide)
  exact ⟨fs1, pub, h1, h2, h5 rfl⟩

end SlangPlayground
